import Mathlib

/-!
Verification development for the json2ansi layout and rendering engine.

The definitions below are a shallow embedding of `src/main.py` (package
version `src/src/main.py`, which is the one containing
`closest_ratio_distribution` and the `br` scaffold node) and of
`src/src/json2ansi/markdown_to_rich.py`.

Modelling conventions:
* Python integers are `Int`, string lengths are cast to `Int` where the
  Python code mixes them with widths.
* Python float arithmetic in `closest_ratio_distribution`
  (`w / total_weight * total`) is modelled by exact rational arithmetic
  over `ℚ`; `int(v)` is truncation toward zero (`ratTrunc`).
* Python's stable `sorted(pairs, reverse=True)` on `(fraction, index)`
  pairs is modelled by `List.insertionSort` with the reversed
  lexicographic order `pyDescPair`; since all indices are distinct the
  sorted result is unique, so any correct sort gives the Python list.
* `raise ValueError(...)` is modelled by `Except.error` with a
  `RenderError` constructor per distinct message.
* Rich `console.print` side effects are abstracted into `OutEvent`
  values; per spec §1 the final write of styled text is out of scope.
-/

/-- Constant `FLEX_MIN_COLUMN_WIDTH = 3` from `src/src/main.py`. -/
def FLEX_MIN_COLUMN_WIDTH : Int := 3

/-- Table cell contents (`text`, `repeat` and `textArray` dict shapes from
the schema).  Only the measured string values are retained; style lists do
not influence any measured width.  The Python `repeat` kind is named `rep`
because `repeat` is a Lean keyword. -/
inductive Cell where
  | text (value : String)
  | rep (value : String)
  | textArray (segs : List String)
deriving DecidableEq, Repr

/-- Measured length of one cell: the `match cell` arms inside
`calc_dynamic_width` (`len(str(val))` for text and repeat,
`len("".join(values))` for a text array). -/
def cellContentLen : Cell → Int
  | .text v => (v.length : Int)
  | .rep v => (v.length : Int)
  | .textArray segs => ((String.join segs).length : Int)

/-- Embedding of `calc_dynamic_width(rows, col_idx)`: running maximum
starting from `FLEX_MIN_COLUMN_WIDTH`, over the measured length of the
cell at `col_idx` in each row.  Out-of-range cell access (a Python
`IndexError`, excluded by the row-arity invariant) is modelled with
`List.getD`. -/
def calc_dynamic_width (rows : List (List Cell)) (col_idx : Nat) : Int :=
  rows.foldl (fun max_len row => max max_len (cellContentLen (row.getD col_idx (Cell.text "")))) FLEX_MIN_COLUMN_WIDTH

/-- Column size specification: `{"mode": "fixed", "value": v}` or
`{"mode": "flex", "value": w}`.  Flex weights are JSON numbers, modelled
as `ℚ`. -/
inductive SizeSpec where
  | fixed (v : Int)
  | flex (w : ℚ)
deriving DecidableEq, Repr

/-- A table column; alignment and overflow fields only affect the Rich
printing, which is abstracted away, so only `size` is retained. -/
structure Column where
  size : SizeSpec
deriving DecidableEq, Repr

/-- One constructor per distinct `ValueError` message raised by the width
allocator in `src/src/main.py`. -/
inductive RenderError where
  | unknownSizeSpec (s : SizeSpec)
  | allWeightsZero
  | tableExceedsWidth (used eff : Int)
deriving DecidableEq, Repr

instance {ε α : Type} [DecidableEq ε] [DecidableEq α] : DecidableEq (Except ε α) := fun a b =>
  match a, b with
  | .error e, .error e' => if h : e = e' then isTrue (by rw [h]) else isFalse (by simp [h])
  | .ok x, .ok y => if h : x = y then isTrue (by rw [h]) else isFalse (by simp [h])
  | .error _, .ok _ => isFalse (by simp)
  | .ok _, .error _ => isFalse (by simp)

/-- Python `int(v)` on a float/rational: truncation toward zero. -/
def ratTrunc (q : ℚ) : Int :=
  if 0 ≤ q then ⌊q⌋ else ⌈q⌉

/-- Python tuple comparison on `(fraction, index)` pairs under
`sorted(..., reverse=True)`: `x` precedes `y` when `x` is
lexicographically greater-or-equal. -/
def pyDescPair (x y : ℚ × ℕ) : Prop :=
  y.1 < x.1 ∨ (x.1 = y.1 ∧ y.2 ≤ x.2)

instance : DecidableRel pyDescPair := fun x y => by
  unfold pyDescPair
  infer_instance

instance : IsTotal (ℚ × ℕ) pyDescPair := by
  constructor
  intro x y
  unfold pyDescPair
  rcases lt_trichotomy x.1 y.1 with h | h | h
  · exact Or.inr (Or.inl h)
  · rcases Nat.le_total y.2 x.2 with h2 | h2
    · exact Or.inl (Or.inr ⟨h, h2⟩)
    · exact Or.inr (Or.inr ⟨h.symm, h2⟩)
  · exact Or.inl (Or.inl h)

instance : IsTrans (ℚ × ℕ) pyDescPair := by
  constructor
  intro a b c hab hbc
  unfold pyDescPair at *
  rcases hab with h1 | ⟨h1, h1'⟩ <;> rcases hbc with h2 | ⟨h2, h2'⟩
  · exact Or.inl (h2.trans h1)
  · exact Or.inl (h2 ▸ h1)
  · exact Or.inl (h1 ▸ h2)
  · exact Or.inr ⟨h1.trans h2, h2'.trans h1'⟩

instance : IsAntisymm (ℚ × ℕ) pyDescPair := by
  constructor
  intro a b hab hba
  rcases hab with h1 | ⟨h1, h1'⟩ <;> rcases hba with h2 | ⟨h2, h2'⟩
  · exact absurd (h1.trans h2) (lt_irrefl _)
  · exact absurd (h2 ▸ h1) (lt_irrefl _)
  · exact absurd (h1 ▸ h2) (lt_irrefl _)
  · exact Prod.ext h1 (Nat.le_antisymm h2' h1')

/-- The list `exact_values = [w / total_weight * total for w in weights]`
of `closest_ratio_distribution`. -/
def exact_values (weights : List ℚ) (total : Int) : List ℚ :=
  weights.map (fun w => w / weights.sum * (total : ℚ))

/-- The list `remainders = [(v - int(v), i) for i, v in enumerate(exact_values)]`. -/
def remainders_list (weights : List ℚ) (total : Int) : List (ℚ × ℕ) :=
  (exact_values weights total).enum.map (fun p => (p.2 - (ratTrunc p.2 : ℚ), p.1))

/-- `sorted(remainders, reverse=True)`: descending lexicographic order on
`(fraction, index)`; ties on the fraction are broken toward the larger
index. -/
def sorted_remainders (weights : List ℚ) (total : Int) : List (ℚ × ℕ) :=
  (remainders_list weights total).insertionSort pyDescPair

/-- `floor_values[i] += 1` on a list of ints. -/
def incAt : List Int → Nat → List Int
  | [], _ => []
  | x :: xs, 0 => (x + 1) :: xs
  | x :: xs, n + 1 => x :: incAt xs n

/-- Number of elements produced by the Python slice `l[:r]` of a list of
length `n`, including the negative-`r` case (drop `|r|` from the end). -/
def pyTakeCount (r : Int) (n : Nat) : Nat :=
  if 0 ≤ r then r.toNat else ((n : Int) + r).toNat

/-- Embedding of `closest_ratio_distribution(weights, total)` from
`src/src/main.py` lines 153-170, with its local lists factored into the
named definitions above. -/
def closest_ratio_distribution (weights : List ℚ) (total : Int) :
    Except RenderError (List Int) :=
  if total = 0 then .ok (List.replicate weights.length 0)
  else if weights.sum = 0 then .error .allWeightsZero
  else
    let floor_values := (exact_values weights total).map ratTrunc
    let remainder := total - floor_values.sum
    let awarded := (sorted_remainders weights total).take
      (pyTakeCount remainder (sorted_remainders weights total).length)
    .ok (awarded.foldl (fun fv p => incAt fv p.2) floor_values)

/-- Pass 1 of `compute_column_widths`: resolve fixed and dynamic widths
(`col_widths[i]`), collect flex `(index, weight)` pairs in column order,
and raise `unknownSizeSpec` on the first invalid size (a fixed width that
is neither positive nor zero falls through the Python `match` to the
`case _` arm). `i0` is the absolute index of the first column of `cols`. -/
def resolveCols (rows : List (List Cell)) :
    List Column → Nat → Except RenderError (List (Option Int) × List (Nat × ℚ))
  | [], _ => .ok ([], [])
  | c :: cs, i =>
    match c.size with
    | .fixed v =>
      if 0 < v then
        match resolveCols rows cs (i + 1) with
        | .error e => .error e
        | .ok (ws, fs) => .ok (some v :: ws, fs)
      else if v = 0 then
        match resolveCols rows cs (i + 1) with
        | .error e => .error e
        | .ok (ws, fs) => .ok (some (calc_dynamic_width rows i) :: ws, fs)
      else .error (.unknownSizeSpec c.size)
    | .flex w =>
      match resolveCols rows cs (i + 1) with
      | .error e => .error e
      | .ok (ws, fs) => .ok (none :: ws, (i, w) :: fs)

/-- Pass-2 assignment `col_widths[i] = max(flex_widths[idx], FLEX_MIN_COLUMN_WIDTH)`
for each flex index, in order. -/
def applyFlexWidths : List (Option Int) → List Nat → List Int → List (Option Int)
  | cw, i :: is, f :: fs => applyFlexWidths (cw.set i (some (max f FLEX_MIN_COLUMN_WIDTH))) is fs
  | cw, _, _ => cw

/-- Final lines of `compute_column_widths`: sum the resolved widths, add
the separators, and fail when the result exceeds the effective width. -/
def finishWidths (cw : List (Option Int)) (total_separators effective_width : Int) :
    Except RenderError (List Int) :=
  let widths := cw.map (fun o => o.getD 0)
  let used_width := widths.sum + total_separators
  if effective_width < used_width then .error (.tableExceedsWidth used_width effective_width)
  else .ok widths

/-- Embedding of `compute_column_widths(columns, rows, context_width, indent)`
from `src/src/main.py` lines 173-210. -/
def compute_column_widths (columns : List Column) (rows : List (List Cell))
    (context_width indent : Int) : Except RenderError (List Int) :=
  let effective_width := max (context_width - indent) FLEX_MIN_COLUMN_WIDTH
  let total_separators : Int := (columns.length : Int) - 1
  match resolveCols rows columns 0 with
  | .error e => .error e
  | .ok (col_widths, flexes) =>
    match flexes with
    | [] => finishWidths col_widths total_separators effective_width
    | _ :: _ =>
      let used_width := (col_widths.filterMap id).sum + total_separators
      let remaining := effective_width - used_width
      match closest_ratio_distribution (flexes.map Prod.snd) remaining with
      | .error e => .error e
      | .ok flex_widths =>
        finishWidths (applyFlexWidths col_widths (flexes.map Prod.fst) flex_widths)
          total_separators effective_width

/-- Modelled from the spec: "resolved width equals the maximum measured
content length across all rows in that column" (§8, dynamic sizing).
Used as the reference value that `calc_dynamic_width` is compared with. -/
def specMaxContentLen (rows : List (List Cell)) (j : Nat) : Int :=
  ((rows.map (fun r => cellContentLen (r.getD j (Cell.text "")))).foldr max 0)

/-- A table node: the fields of the `"table"` scaffold dict that the width
allocator reads (`node["columns"]`, `node["rows"]`).  The table-level
alignment only affects the abstracted Rich printing. -/
structure TableNode where
  columns : List Column
  rows : List (List Cell)
deriving DecidableEq, Repr

/-- Scaffold tree nodes.  `other tag` stands for any node dict whose
`"type"` is none of `"indent"`, `"table"`, `"br"`. -/
inductive ScaffoldNode where
  | indent (amount : Int) (content : List ScaffoldNode)
  | table (t : TableNode)
  | br
  | other (tag : String)
deriving Repr

/-- Observable output of the walker: one event per `console.print` call.
A rendered table is abstracted to its indent and computed widths (the Rich
table construction performs no further fallible layout decisions). -/
inductive OutEvent where
  | tableOut (indent : Int) (widths : List Int)
  | blank
deriving DecidableEq, Repr

/-- Embedding of `render_table`: compute the widths, then print.  Only
the width computation can fail. -/
def render_table (t : TableNode) (indent context_width : Int) :
    Except RenderError (List OutEvent) :=
  match compute_column_widths t.columns t.rows context_width indent with
  | .error e => .error e
  | .ok ws => .ok [.tableOut indent ws]

mutual

/-- Embedding of `render_scaffold(node, console, indent, context_width)`
from `src/src/main.py` lines 258-268.  The Python function is an
`if/elif/elif` chain with no `else`: a node of any other type falls
through and produces nothing. -/
def render_scaffold (node : ScaffoldNode) (indent context_width : Int) :
    Except RenderError (List OutEvent) :=
  match node with
  | .indent amount content => render_scaffold_list content (indent + amount) context_width
  | .table t => render_table t indent context_width
  | .br => .ok [.blank]
  | .other _ => .ok []

/-- Sequential rendering of child nodes (`for child in node["content"]`),
stopping at the first raised error. -/
def render_scaffold_list (nodes : List ScaffoldNode) (indent context_width : Int) :
    Except RenderError (List OutEvent) :=
  match nodes with
  | [] => .ok []
  | n :: ns =>
    match render_scaffold n indent context_width with
    | .error e => .error e
    | .ok evs =>
      match render_scaffold_list ns indent context_width with
      | .error e => .error e
      | .ok evs' => .ok (evs ++ evs')

end

/-- A regex match: start and one-past-end offsets into the searched
string, plus captured groups (`g2` is only used by the link pattern and
is `[]` otherwise).  Strings are handled as `List Char`. -/
structure RMatch where
  start : Nat
  stop : Nat
  g1 : List Char
  g2 : List Char
deriving DecidableEq, Repr

/-- Lazy body scan for a pattern tail `(.+?)R`: consume at least one
non-newline character, stopping as soon as the closing delimiter `R`
follows (the non-greedy `+?` takes the shortest body).  `acc` is the body
consumed so far; returns the body and the text after `R`. -/
def scanInner (R : List Char) : List Char → List Char → Option (List Char × List Char)
  | _, [] => none
  | acc, c :: cs =>
    if c = '\n' then none
    else if R.isPrefixOf cs then some (acc ++ [c], cs.drop R.length)
    else scanInner R (acc ++ [c]) cs

/-- `re.search` for a delimited pattern `L(.+?)R` (the bold-italic, bold,
italic, strike and underline patterns): try each start position from the
left; at a position where `L` matches, take the lazily shortest body
followed by `R`. -/
def delimSearch (L R : List Char) : List Char → Nat → Option RMatch
  | [], _ => none
  | c :: cs, pos =>
    match (if L.isPrefixOf (c :: cs) then scanInner R [] ((c :: cs).drop L.length) else none) with
    | some (inner, _) => some ⟨pos, pos + L.length + inner.length + R.length, inner, []⟩
    | none => delimSearch L R cs (pos + 1)

/-- Lazy scan for the link pattern after the opening `[`: find the
shortest display text (≥ 1 non-newline character) followed by `](` and a
closing `(.+?)\x29` body; on an inner failure the display text is
extended, mirroring regex backtracking. -/
def linkInner1 : List Char → List Char → Option (List Char × List Char × List Char)
  | _, [] => none
  | acc, c :: cs =>
    if c = '\n' then none
    else
      match cs with
      | c1 :: c2 :: cs2 =>
        if c1 = ']' ∧ c2 = '(' then
          match scanInner [')'] [] cs2 with
          | some (i2, rest) => some (acc ++ [c], i2, rest)
          | none => linkInner1 (acc ++ [c]) (c1 :: c2 :: cs2)
        else linkInner1 (acc ++ [c]) (c1 :: c2 :: cs2)
      | [] => linkInner1 (acc ++ [c]) []
      | [c1] => linkInner1 (acc ++ [c]) [c1]
termination_by acc t => t.length
decreasing_by all_goals simp

/-- `re.search` for the link pattern `[text](url)`. -/
def linkSearch : List Char → Nat → Option RMatch
  | [], _ => none
  | c :: cs, pos =>
    match (if c = '[' then linkInner1 [] cs else none) with
    | some (i1, i2, _) => some ⟨pos, pos + 1 + i1.length + 2 + i2.length + 1, i1, i2⟩
    | none => linkSearch cs (pos + 1)

/-- The six marker patterns of `MarkdownParser.PATTERNS`. -/
inductive Marker where
  | boldItalic
  | bold
  | italic
  | strike
  | underline
  | link
deriving DecidableEq, Repr

/-- `pattern.search(md)` for each compiled pattern. -/
def searchMarker : Marker → List Char → Option RMatch
  | .boldItalic, md => delimSearch ['*', '*', '*'] ['*', '*', '*'] md 0
  | .bold, md => delimSearch ['*', '*'] ['*', '*'] md 0
  | .italic, md => delimSearch ['*'] ['*'] md 0
  | .strike, md => delimSearch ['~', '~'] ['~', '~'] md 0
  | .underline, md => delimSearch ['_', '_'] ['_', '_'] md 0
  | .link, md => linkSearch md 0

/-- `PATTERNS`, in the source's precedence order, with the style each
pattern carries. -/
def PATTERNS : List (Marker × String) :=
  [(.boldItalic, "bold italic"), (.bold, "bold"), (.italic, "italic"),
   (.strike, "strike"), (.underline, "underline"), (.link, "link")]

/-- One step of the first-match loop in `parse_inline` lines 49-56: keep
the current best unless this pattern matches strictly earlier (or nothing
was found yet). -/
def pickLeft (md : List Char) (acc : Option (RMatch × String)) (x : Marker × String) :
    Option (RMatch × String) :=
  match searchMarker x.1 md with
  | none => acc
  | some m =>
    match acc with
    | none => some (m, x.2)
    | some (m0, st0) => if m.start < m0.start then some (m, x.2) else some (m0, st0)

/-- The first-match selection loop of `parse_inline`. -/
def firstMatch (md : List Char) : Option (RMatch × String) :=
  PATTERNS.foldl (pickLeft md) none

theorem scanInner_spec (R : List Char) :
    ∀ (t acc inner rest : List Char), scanInner R acc t = some (inner, rest) →
      ∃ d, inner = acc ++ d ∧ 1 ≤ d.length ∧ t = d ++ R ++ rest := by
  intro t
  induction t with
  | nil => intro acc inner rest h; simp [scanInner] at h
  | cons c cs ih =>
    intro acc inner rest h
    rw [scanInner] at h
    by_cases hnl : c = '\n'
    · simp [hnl] at h
    · simp only [hnl, if_false] at h
      by_cases hpre : R.isPrefixOf cs
      · simp only [hpre, if_true, Option.some.injEq, Prod.mk.injEq] at h
        refine ⟨[c], h.1.symm, by simp, ?_⟩
        have : R <+: cs := List.isPrefixOf_iff_prefix.mp hpre
        obtain ⟨u, hu⟩ := this
        subst hu
        rw [← h.2, List.drop_left]
        simp
      · simp only [hpre, if_false] at h
        obtain ⟨d, hd1, hd2, hd3⟩ := ih (acc ++ [c]) inner rest h
        exact ⟨[c] ++ d, by simp [hd1], by simp, by simp [hd3]⟩

theorem delimSearch_span (L R : List Char) (hL : 1 ≤ L.length) (hR : 1 ≤ R.length) :
    ∀ (s : List Char) (pos : Nat) (m : RMatch), delimSearch L R s pos = some m →
      pos ≤ m.start ∧ m.stop = m.start + L.length + m.g1.length + R.length ∧
        1 ≤ m.g1.length ∧ m.stop ≤ pos + s.length ∧ m.g2 = [] := by
  intro s
  induction s with
  | nil => intro pos m h; simp [delimSearch] at h
  | cons c cs ih =>
    intro pos m h
    rw [delimSearch] at h
    rcases hcase : (if L.isPrefixOf (c :: cs) then scanInner R [] ((c :: cs).drop L.length) else none) with _ | ⟨inner, rest⟩
    · rw [hcase] at h
      obtain ⟨h1, h2, h3, h4, h5⟩ := ih (pos + 1) m h
      exact ⟨by omega, h2, h3, by simp; omega, h5⟩
    · rw [hcase] at h
      simp only [Option.some.injEq] at h
      subst h
      by_cases hpre : L.isPrefixOf (c :: cs)
      · simp only [hpre, if_true] at hcase
        obtain ⟨d, hd1, hd2, hd3⟩ := scanInner_spec R _ [] inner rest hcase
        simp only [List.nil_append] at hd1
        subst hd1
        have hpre' : L <+: (c :: cs) := List.isPrefixOf_iff_prefix.mp hpre
        obtain ⟨u, hu⟩ := hpre'
        have hlen : (c :: cs).length = L.length + u.length := by rw [← hu]; simp
        have hdrop : (c :: cs).drop L.length = u := by rw [← hu]; simp
        rw [hdrop] at hd3
        have : u.length = inner.length + R.length + rest.length := by
          rw [hd3]; simp [List.length_append]; omega
        refine ⟨le_refl _, rfl, hd2, ?_, rfl⟩
        show pos + L.length + inner.length + R.length ≤ pos + (c :: cs).length
        omega
      · simp [hpre] at hcase

theorem linkInner1_spec :
    ∀ (t acc i1 i2 rest : List Char), linkInner1 acc t = some (i1, i2, rest) →
      ∃ d, i1 = acc ++ d ∧ 1 ≤ d.length ∧ 1 ≤ i2.length ∧
        t.length = d.length + 2 + i2.length + 1 + rest.length := by
  intro t
  induction t with
  | nil => intro acc i1 i2 rest h; simp [linkInner1] at h
  | cons c cs ih =>
    intro acc i1 i2 rest h
    have step : linkInner1 (acc ++ [c]) cs = some (i1, i2, rest) →
        ∃ d, i1 = acc ++ d ∧ 1 ≤ d.length ∧ 1 ≤ i2.length ∧
          (c :: cs).length = d.length + 2 + i2.length + 1 + rest.length := by
      intro h'
      obtain ⟨d, hd1, hd2, hd3, hd4⟩ := ih (acc ++ [c]) i1 i2 rest h'
      exact ⟨[c] ++ d, by simp [hd1], by simp, hd3, by simp at hd4 ⊢; omega⟩
    rw [linkInner1.eq_def] at h
    by_cases hnl : c = '\n'
    · simp [hnl] at h
    simp only [hnl, if_false] at h
    rcases cs with _ | ⟨c1, cs'⟩
    · exact step h
    rcases cs' with _ | ⟨c2, cs2⟩
    · exact step h
    by_cases hb : c1 = ']' ∧ c2 = '('
    · dsimp only at h
      rw [if_pos hb] at h
      rcases hscan : scanInner [')'] [] cs2 with _ | ⟨i2', rest'⟩
      · rw [hscan] at h
        exact step h
      · rw [hscan] at h
        simp only [Option.some.injEq, Prod.mk.injEq] at h
        obtain ⟨h1, h2, h3⟩ := h
        obtain ⟨d2, hd1, hd2, hd3⟩ := scanInner_spec [')'] cs2 [] i2' rest' hscan
        simp only [List.nil_append] at hd1
        subst hd1
        subst h2 h3
        refine ⟨[c], h1.symm, by simp, by omega, ?_⟩
        have : cs2.length = i2'.length + 1 + rest'.length := by
          rw [hd3]; simp; omega
        simp
        omega
    · dsimp only at h
      rw [if_neg hb] at h
      exact step h


theorem linkSearch_span :
    ∀ (s : List Char) (pos : Nat) (m : RMatch), linkSearch s pos = some m →
      pos ≤ m.start ∧ m.stop = m.start + 1 + m.g1.length + 2 + m.g2.length + 1 ∧
        1 ≤ m.g1.length ∧ 1 ≤ m.g2.length ∧ m.stop ≤ pos + s.length := by
  intro s
  induction s with
  | nil => intro pos m h; simp [linkSearch] at h
  | cons c cs ih =>
    intro pos m h
    rw [linkSearch] at h
    rcases hcase : (if c = '[' then linkInner1 [] cs else none) with _ | ⟨i1, i2, rest⟩
    · rw [hcase] at h
      obtain ⟨h1, h2, h3, h4, h5⟩ := ih (pos + 1) m h
      exact ⟨by omega, h2, h3, h4, by simp; omega⟩
    · rw [hcase] at h
      simp only [Option.some.injEq] at h
      subst h
      by_cases hc : c = '['
      · rw [if_pos hc] at hcase
        obtain ⟨d, hd1, hd2, hd3, hd4⟩ := linkInner1_spec cs [] i1 i2 rest hcase
        simp only [List.nil_append] at hd1
        subst hd1
        refine ⟨le_refl _, rfl, hd2, hd3, ?_⟩
        show pos + 1 + i1.length + 2 + i2.length + 1 ≤ pos + (c :: cs).length
        simp
        omega
      · simp [hc] at hcase

theorem searchMarker_span (pm : Marker) (md : List Char) (m : RMatch)
    (h : searchMarker pm md = some m) :
    1 ≤ m.g1.length ∧ m.g1.length + 2 ≤ m.stop - m.start ∧ m.start < m.stop ∧
      m.stop ≤ md.length := by
  cases pm <;> simp only [searchMarker] at h
  case boldItalic =>
    obtain ⟨h1, h2, h3, h4, h5⟩ := delimSearch_span _ _ (by simp) (by simp) md 0 m h
    simp at h2 h4
    refine ⟨h3, by omega, by omega, by omega⟩
  case bold =>
    obtain ⟨h1, h2, h3, h4, h5⟩ := delimSearch_span _ _ (by simp) (by simp) md 0 m h
    simp at h2 h4
    refine ⟨h3, by omega, by omega, by omega⟩
  case italic =>
    obtain ⟨h1, h2, h3, h4, h5⟩ := delimSearch_span _ _ (by simp) (by simp) md 0 m h
    simp at h2 h4
    refine ⟨h3, by omega, by omega, by omega⟩
  case strike =>
    obtain ⟨h1, h2, h3, h4, h5⟩ := delimSearch_span _ _ (by simp) (by simp) md 0 m h
    simp at h2 h4
    refine ⟨h3, by omega, by omega, by omega⟩
  case underline =>
    obtain ⟨h1, h2, h3, h4, h5⟩ := delimSearch_span _ _ (by simp) (by simp) md 0 m h
    simp at h2 h4
    refine ⟨h3, by omega, by omega, by omega⟩
  case link =>
    obtain ⟨h1, h2, h3, h4, h5⟩ := linkSearch_span md 0 m h
    simp at h5
    refine ⟨h3, by omega, by omega, by omega⟩

theorem foldl_pickLeft_pred (md : List Char) (P : RMatch → Prop) :
    ∀ (l : List (Marker × String)) (acc : Option (RMatch × String)),
      (∀ m0 st0, acc = some (m0, st0) → P m0) →
      (∀ x ∈ l, ∀ m', searchMarker x.1 md = some m' → P m') →
      ∀ m st, l.foldl (pickLeft md) acc = some (m, st) → P m := by
  intro l
  induction l with
  | nil =>
    intro acc hacc _ m st h
    exact hacc m st h
  | cons x xs ih =>
    intro acc hacc hl m st h
    simp only [List.foldl_cons] at h
    refine ih (pickLeft md acc x) ?_ (fun y hy => hl y (List.mem_cons_of_mem x hy)) m st h
    intro m0 st0 hp
    rw [pickLeft] at hp
    rcases hs : searchMarker x.1 md with _ | m'
    · rw [hs] at hp
      exact hacc m0 st0 hp
    · rw [hs] at hp
      have hPm' : P m' := hl x (List.mem_cons_self x xs) m' hs
      rcases hacc' : acc with _ | ⟨ma, sta⟩
      · rw [hacc'] at hp
        simp at hp
        rw [← hp.1]
        exact hPm'
      · rw [hacc'] at hp
        dsimp only at hp
        by_cases hlt : m'.start < ma.start
        · rw [if_pos hlt] at hp
          simp at hp
          rw [← hp.1]
          exact hPm'
        · rw [if_neg hlt] at hp
          simp at hp
          rw [← hp.1]
          exact hacc ma sta hacc'

theorem firstMatch_span (md : List Char) (m : RMatch) (st : String)
    (h : firstMatch md = some (m, st)) :
    1 ≤ m.g1.length ∧ m.g1.length + 2 ≤ m.stop - m.start ∧ m.start < m.stop ∧
      m.stop ≤ md.length := by
  refine foldl_pickLeft_pred md
    (fun m => 1 ≤ m.g1.length ∧ m.g1.length + 2 ≤ m.stop - m.start ∧ m.start < m.stop ∧
      m.stop ≤ md.length) PATTERNS none (by simp) ?_ m st h
  intro x _ m' hm'
  exact searchMarker_span x.1 md m' hm'

/-- A styled text fragment (`Token` dataclass in `markdown_to_rich.py`).
Text is kept as `List Char`, matching the parser's character-level view. -/
structure Token where
  text : List Char
  style : Option String
deriving DecidableEq, Repr

/-- Embedding of `MarkdownParser.handle_bold`: iterate the italic pattern
over the bold body via `re.finditer`, emitting plain chunks as `bold` and
matched bodies as `bold italic`.  Successive non-overlapping matches are
found by searching the remaining suffix. -/
def handle_bold (inner_text : List Char) : List Token :=
  match hm : delimSearch ['*'] ['*'] inner_text 0 with
  | none => if inner_text = [] then [] else [⟨inner_text, some "bold"⟩]
  | some m =>
    (if 0 < m.start then [⟨inner_text.take m.start, some "bold"⟩] else []) ++
      [⟨m.g1, some "bold italic"⟩] ++ handle_bold (inner_text.drop m.stop)
termination_by inner_text.length
decreasing_by
  obtain ⟨h1, h2, h3, h4, h5⟩ := delimSearch_span ['*'] ['*'] (by simp) (by simp) inner_text 0 m hm
  simp at h2 h4
  simp
  omega

mutual

/-- Embedding of `MarkdownParser.parse_inline` from
`markdown_to_rich.py` lines 36-82: find the first match over all
patterns, recursively parse the literal prefix, fold the matched body
(with the `bold` and `link` special cases), and recursively parse the
suffix. -/
def parse_inline (md : List Char) : List Token :=
  if md = [] then []
  else
    match hm : firstMatch md with
    | none => [⟨md, none⟩]
    | some (m, style) =>
      (if hpre : 0 < m.start then parse_inline (md.take m.start) else []) ++
        (if style = "bold" then handle_bold m.g1
         else if style = "link" then handle_link m.g1 m.g2
         else (parse_inline m.g1).map (fun t =>
           { t with style := some (match t.style with
               | none => style
               | some s => s ++ " " ++ style) })) ++
        (if hpost : m.stop < md.length then parse_inline (md.drop m.stop) else [])
termination_by (md.length, 0)
decreasing_by
  · simp_wf
    obtain ⟨h1, h2, h3, h4⟩ := firstMatch_span md m style hm
    exact Prod.Lex.left _ _ (by simp [List.length_take]; omega)
  · simp_wf
    obtain ⟨h1, h2, h3, h4⟩ := firstMatch_span md m style hm
    exact Prod.Lex.left _ _ (by omega)
  · simp_wf
    obtain ⟨h1, h2, h3, h4⟩ := firstMatch_span md m style hm
    exact Prod.Lex.left _ _ (by omega)
  · simp_wf
    obtain ⟨h1, h2, h3, h4⟩ := firstMatch_span md m style hm
    exact Prod.Lex.left _ _ (by simp [List.length_drop]; omega)

/-- Embedding of `MarkdownParser.handle_link`: parse the display text and
append `link <url>` to every fragment's style. -/
def handle_link (inner_text url : List Char) : List Token :=
  (parse_inline inner_text).map (fun t =>
    ⟨t.text, some ((match t.style with | none => "" | some s => s ++ " ") ++
      "link " ++ String.mk url)⟩)
termination_by (inner_text.length, 1)
decreasing_by
  · simp_wf
    exact Prod.Lex.right _ (by omega)

end

theorem incAt_length : ∀ (l : List Int) (i : Nat), (incAt l i).length = l.length := by
  intro l
  induction l with
  | nil => intro i; rfl
  | cons x xs ih =>
    intro i
    cases i with
    | zero => rfl
    | succ n => simp [incAt, ih n]

theorem incAt_sum : ∀ (l : List Int) (i : Nat), i < l.length → (incAt l i).sum = l.sum + 1 := by
  intro l
  induction l with
  | nil => intro i h; simp at h
  | cons x xs ih =>
    intro i h
    cases i with
    | zero => simp [incAt]; ring
    | succ n =>
      simp only [incAt, List.sum_cons]
      rw [ih n (by simp at h; omega)]
      ring

theorem foldl_incAt_sum :
    ∀ (l : List (ℚ × ℕ)) (acc : List Int), (∀ p ∈ l, p.2 < acc.length) →
      ((l.foldl (fun fv p => incAt fv p.2) acc).sum = acc.sum + l.length ∧
        (l.foldl (fun fv p => incAt fv p.2) acc).length = acc.length) := by
  intro l
  induction l with
  | nil => intro acc _; simp
  | cons p ps ih =>
    intro acc hall
    simp only [List.foldl_cons]
    have hp : p.2 < acc.length := hall p (List.mem_cons_self p ps)
    have hrec := ih (incAt acc p.2) (by
      intro q hq
      rw [incAt_length]
      exact hall q (List.mem_cons_of_mem p hq))
    rw [incAt_length] at hrec
    refine ⟨?_, hrec.2⟩
    rw [hrec.1, incAt_sum acc p.2 hp]
    simp
    ring

theorem exact_values_sum (weights : List ℚ) (total : Int) (hW : weights.sum ≠ 0) :
    (exact_values weights total).sum = (total : ℚ) := by
  unfold exact_values
  have : ∀ (l : List ℚ) (W T : ℚ), (l.map (fun w => w / W * T)).sum = l.sum / W * T := by
    intro l W T
    induction l with
    | nil => simp
    | cons x xs ih => simp [ih, add_div, add_mul]
  rw [this weights weights.sum (total : ℚ), div_self hW, one_mul]

theorem ratTrunc_eq_floor (q : ℚ) (h : 0 ≤ q) : ratTrunc q = ⌊q⌋ := by
  simp [ratTrunc, h]

theorem sum_floor_le (E : List ℚ) : ((E.map (fun e => (⌊e⌋ : ℚ))).sum ≤ E.sum) := by
  induction E with
  | nil => simp
  | cons x xs ih =>
    simp only [List.map_cons, List.sum_cons]
    have := Int.floor_le x
    push_cast
    linarith

theorem sum_lt_floor_add_length (E : List ℚ) (hne : E ≠ []) :
    E.sum < (E.map (fun e => (⌊e⌋ : ℚ))).sum + E.length := by
  induction E with
  | nil => exact absurd rfl hne
  | cons x xs ih =>
    simp only [List.map_cons, List.sum_cons, List.length_cons]
    have hx : x < (⌊x⌋ : ℚ) + 1 := Int.lt_floor_add_one x
    cases xs with
    | nil =>
      push_cast
      simpa using hx
    | cons y ys =>
      have hlt := ih (by simp)
      push_cast
      push_cast at hlt
      linarith

theorem foldl_incAt_length (l : List (ℚ × ℕ)) (acc : List Int) :
    (l.foldl (fun fv p => incAt fv p.2) acc).length = acc.length := by
  induction l generalizing acc with
  | nil => rfl
  | cons p ps ih => simp only [List.foldl_cons]; rw [ih, incAt_length]

theorem remainders_list_length (weights : List ℚ) (total : Int) :
    (remainders_list weights total).length = weights.length := by
  simp [remainders_list, List.enum_length, exact_values]

theorem sorted_remainders_perm (weights : List ℚ) (total : Int) :
    List.Perm (sorted_remainders weights total) (remainders_list weights total) :=
  List.perm_insertionSort pyDescPair _

theorem mem_remainders_idx (weights : List ℚ) (total : Int) (p : ℚ × ℕ)
    (h : p ∈ remainders_list weights total) : p.2 < weights.length := by
  unfold remainders_list at h
  obtain ⟨q, hq, hpq⟩ := List.mem_map.mp h
  have := List.fst_lt_of_mem_enum hq
  rw [← hpq]
  simpa [exact_values] using this

theorem closest_ratio_distribution_length (weights : List ℚ) (total : Int)
    (ds : List Int) (h : closest_ratio_distribution weights total = .ok ds) :
    ds.length = weights.length := by
  unfold closest_ratio_distribution at h
  by_cases h0 : total = 0
  · simp [h0] at h
    simp [← h]
  · rw [if_neg h0] at h
    by_cases hz : weights.sum = 0
    · simp [hz] at h
    · rw [if_neg hz] at h
      simp only [Except.ok.injEq] at h
      rw [← h, foldl_incAt_length]
      simp [exact_values]

theorem closest_ratio_distribution_sum_core (weights : List ℚ) (total : Int)
    (hnn : ∀ w ∈ weights, 0 ≤ w) (hpos : 0 < weights.sum) (htot : 0 ≤ total) :
    ∀ ds, closest_ratio_distribution weights total = .ok ds → ds.sum = total := by
  intro ds h
  unfold closest_ratio_distribution at h
  by_cases h0 : total = 0
  · simp [h0] at h
    subst h0
    simp [← h]
  · rw [if_neg h0, if_neg (ne_of_gt hpos)] at h
    simp only [Except.ok.injEq] at h
    have hne : weights ≠ [] := by
      rintro rfl
      simp at hpos
    have hEne : exact_values weights total ≠ [] := by
      simp [exact_values]
      exact hne
    have hEnn : ∀ e ∈ exact_values weights total, 0 ≤ e := by
      intro e he
      obtain ⟨w, hw, hwe⟩ := List.mem_map.mp he
      rw [← hwe]
      have h1 : (0 : ℚ) ≤ w := hnn w hw
      have h2 : (0 : ℚ) ≤ (total : ℚ) := by exact_mod_cast htot
      positivity
    set E := exact_values weights total with hE
    have hmapfloor : E.map ratTrunc = E.map (fun e => ⌊e⌋) := by
      apply List.map_congr_left
      intro e he
      exact ratTrunc_eq_floor e (hEnn e he)
    -- the cast of the floors' sum
    have hcast : (((E.map ratTrunc).sum : Int) : ℚ) = (E.map (fun e => (⌊e⌋ : ℚ))).sum := by
      rw [hmapfloor]
      rw [Int.cast_list_sum, List.map_map]
      rfl
    set fvsum : Int := (E.map ratTrunc).sum with hfv
    set r : Int := total - fvsum with hr
    have hEsum : E.sum = (total : ℚ) := exact_values_sum weights total (ne_of_gt hpos)
    have hrge : 0 ≤ r := by
      have h1 : (E.map (fun e => (⌊e⌋ : ℚ))).sum ≤ E.sum := sum_floor_le E
      have : (fvsum : ℚ) ≤ (total : ℚ) := by rw [hcast, ← hEsum]; exact h1
      have h2 : fvsum ≤ total := by exact_mod_cast this
      omega
    have hrlt : r < (E.length : Int) := by
      have h1 : E.sum < (E.map (fun e => (⌊e⌋ : ℚ))).sum + E.length := sum_lt_floor_add_length E hEne
      have h2 : (total : ℚ) < (fvsum : ℚ) + (E.length : ℚ) := by
        rw [hcast, ← hEsum]; exact_mod_cast h1
      have h3 : total < fvsum + (E.length : Int) := by exact_mod_cast h2
      omega
    have hslen : (sorted_remainders weights total).length = E.length := by
      rw [(sorted_remainders_perm weights total).length_eq, remainders_list_length]
      simp [hE, exact_values]
    have htake : pyTakeCount r (sorted_remainders weights total).length = r.toNat := by
      simp [pyTakeCount, hrge]
    rw [htake] at h
    have hawlen : ((sorted_remainders weights total).take r.toNat).length = r.toNat := by
      rw [List.length_take, hslen]
      omega
    have hawmem : ∀ p ∈ (sorted_remainders weights total).take r.toNat,
        p.2 < (E.map ratTrunc).length := by
      intro p hp
      have hp' : p ∈ sorted_remainders weights total := List.mem_of_mem_take hp
      have hp'' : p ∈ remainders_list weights total :=
        (sorted_remainders_perm weights total).subset hp'
      have := mem_remainders_idx weights total p hp''
      simpa [hE, exact_values] using this
    obtain ⟨hsum, _⟩ := foldl_incAt_sum _ _ hawmem
    rw [← h, hsum, hawlen]
    omega

theorem resolveCols_error (rows : List (List Cell)) :
    ∀ (cols : List Column) (i0 : Nat) (e : RenderError),
      resolveCols rows cols i0 = .error e → ∃ s, e = .unknownSizeSpec s := by
  intro cols
  induction cols with
  | nil => intro i0 e h; simp [resolveCols] at h
  | cons c cs ih =>
    intro i0 e h
    rw [resolveCols] at h
    rcases hsz : c.size with v | w
    · rw [hsz] at h
      dsimp only at h
      by_cases hv : 0 < v
      · rw [if_pos hv] at h
        rcases hrec : resolveCols rows cs (i0 + 1) with e' | ⟨ws, fs⟩
        · rw [hrec] at h
          simp at h
          exact h ▸ ih (i0 + 1) e' hrec
        · rw [hrec] at h
          simp at h
      · rw [if_neg hv] at h
        by_cases hv0 : v = 0
        · rw [if_pos hv0] at h
          rcases hrec : resolveCols rows cs (i0 + 1) with e' | ⟨ws, fs⟩
          · rw [hrec] at h
            simp at h
            exact h ▸ ih (i0 + 1) e' hrec
          · rw [hrec] at h
            simp at h
        · rw [if_neg hv0] at h
          simp at h
          exact ⟨.fixed v, h.symm⟩
    · rw [hsz] at h
      dsimp only at h
      rcases hrec : resolveCols rows cs (i0 + 1) with e' | ⟨ws, fs⟩
      · rw [hrec] at h
        simp at h
        exact h ▸ ih (i0 + 1) e' hrec
      · rw [hrec] at h
        simp at h

theorem closest_ratio_distribution_error (weights : List ℚ) (total : Int) (e : RenderError)
    (h : closest_ratio_distribution weights total = .error e) : e = .allWeightsZero := by
  unfold closest_ratio_distribution at h
  by_cases h0 : total = 0
  · simp [h0] at h
  · rw [if_neg h0] at h
    by_cases hz : weights.sum = 0
    · rw [if_pos hz] at h
      simp at h
      exact h.symm
    · rw [if_neg hz] at h
      simp at h

theorem applyFlexWidths_length :
    ∀ (is : List Nat) (fws : List Int) (cw : List (Option Int)),
      (applyFlexWidths cw is fws).length = cw.length := by
  intro is
  induction is with
  | nil => intro fws cw; cases fws <;> rfl
  | cons i is ih =>
    intro fws cw
    cases fws with
    | nil => rfl
    | cons f fs => rw [applyFlexWidths, ih, List.length_set]

theorem applyFlexWidths_not_mem :
    ∀ (is : List Nat) (fws : List Int) (cw : List (Option Int)) (j : Nat), j ∉ is →
      (applyFlexWidths cw is fws)[j]? = cw[j]? := by
  intro is
  induction is with
  | nil => intro fws cw j _; cases fws <;> rfl
  | cons i is ih =>
    intro fws cw j hj
    cases fws with
    | nil => rfl
    | cons f fs =>
      rw [applyFlexWidths]
      have hji : j ≠ i := fun h => hj (h ▸ List.mem_cons_self i is)
      rw [ih fs _ j (fun h => hj (List.mem_cons_of_mem i h))]
      exact List.getElem?_set_ne (by omega)

theorem applyFlexWidths_mem :
    ∀ (is : List Nat) (fws : List Int) (cw : List (Option Int)) (j : Nat),
      j ∈ is → is.length ≤ fws.length → j < cw.length →
      ∃ f, (applyFlexWidths cw is fws)[j]? = some (some (max f FLEX_MIN_COLUMN_WIDTH)) := by
  intro is
  induction is with
  | nil => intro fws cw j hj; simp at hj
  | cons i is ih =>
    intro fws cw j hj hlen hcw
    cases fws with
    | nil => simp at hlen
    | cons f fs =>
      rw [applyFlexWidths]
      by_cases hmem : j ∈ is
      · exact ih fs _ j hmem (by simp at hlen ⊢; omega) (by rw [List.length_set]; exact hcw)
      · have hji : j = i := by
          rcases List.mem_cons.mp hj with h | h
          · exact h
          · exact absurd h hmem
        subst hji
        rw [applyFlexWidths_not_mem is fs _ j hmem]
        refine ⟨f, ?_⟩
        rw [List.getElem?_set_self (by omega)]

theorem finishWidths_ok (cw : List (Option Int)) (seps eff : Int) (ws : List Int)
    (h : finishWidths cw seps eff = .ok ws) :
    ws = cw.map (fun o => o.getD 0) ∧ ws.sum + seps ≤ eff := by
  unfold finishWidths at h
  by_cases hlt : eff < (cw.map (fun o => o.getD 0)).sum + seps
  · rw [if_pos hlt] at h
    simp at h
  · rw [if_neg hlt] at h
    simp at h
    exact ⟨h.symm, by rw [← h]; omega⟩

theorem finishWidths_error (cw : List (Option Int)) (seps eff u e : Int)
    (h : finishWidths cw seps eff = .error (.tableExceedsWidth u e)) :
    e = eff ∧ eff < u := by
  unfold finishWidths at h
  by_cases hlt : eff < (cw.map (fun o => o.getD 0)).sum + seps
  · rw [if_pos hlt] at h
    simp at h
    exact ⟨h.2.symm, by rw [← h.1]; exact hlt⟩
  · rw [if_neg hlt] at h
    simp at h

theorem resolveCols_ok (rows : List (List Cell)) :
    ∀ (cols : List Column) (i0 : Nat) (cw : List (Option Int)) (fs : List (Nat × ℚ)),
      resolveCols rows cols i0 = .ok (cw, fs) →
      cw.length = cols.length ∧
      (∀ p ∈ fs, i0 ≤ p.1 ∧ ∃ c, cols[p.1 - i0]? = some c ∧ c.size = .flex p.2) ∧
      (∀ (j : Nat) (c : Column), cols[j]? = some c →
        (∀ v, c.size = .fixed v → 0 < v → cw[j]? = some (some v)) ∧
        (c.size = .fixed 0 → cw[j]? = some (some (calc_dynamic_width rows (i0 + j)))) ∧
        (∀ w, c.size = .flex w → cw[j]? = some none ∧ (i0 + j, w) ∈ fs)) := by
  intro cols
  induction cols with
  | nil =>
    intro i0 cw fs h
    simp [resolveCols] at h
    obtain ⟨h1, h2⟩ := h
    subst h1
    subst h2
    refine ⟨rfl, by simp, ?_⟩
    intro j c hj
    simp at hj
  | cons c cs ih =>
    intro i0 cw fs h
    rw [resolveCols] at h
    rcases hsz : c.size with v | w
    · rw [hsz] at h
      dsimp only at h
      by_cases hv : 0 < v
      · rw [if_pos hv] at h
        rcases hrec : resolveCols rows cs (i0 + 1) with e' | ⟨ws', fs'⟩
        · rw [hrec] at h; simp at h
        · rw [hrec] at h
          simp only [Except.ok.injEq, Prod.mk.injEq] at h
          obtain ⟨hcw, hfs⟩ := h
          subst hcw hfs
          obtain ⟨ih1, ih2, ih3⟩ := ih (i0 + 1) ws' fs' hrec
          refine ⟨by simp [ih1], ?_, ?_⟩
          · intro p hp
            obtain ⟨hge, cc, hcc, hflex⟩ := ih2 p hp
            refine ⟨by omega, cc, ?_, hflex⟩
            have : p.1 - i0 = (p.1 - (i0 + 1)) + 1 := by omega
            rw [this]
            simpa using hcc
          · intro j cc hj
            cases j with
            | zero =>
              simp at hj
              subst hj
              refine ⟨?_, ?_, ?_⟩
              · intro v' hv' hvpos
                rw [hsz] at hv'
                injection hv' with hvv
                subst hvv
                simp
              · intro h0
                rw [hsz] at h0
                injection h0 with hvv
                omega
              · intro w hw
                rw [hsz] at hw
                exact SizeSpec.noConfusion hw
            | succ n =>
              simp only [List.getElem?_cons_succ] at hj
              obtain ⟨g1, g2, g3⟩ := ih3 n cc hj
              refine ⟨fun v' hv' hvpos => by simpa using g1 v' hv' hvpos,
                fun h0 => by
                  rw [List.getElem?_cons_succ, show i0 + (n + 1) = i0 + 1 + n by omega]
                  exact g2 h0,
                fun w hw => ?_⟩
              obtain ⟨ga, gb⟩ := g3 w hw
              refine ⟨by simpa using ga, ?_⟩
              have : i0 + (n + 1) = (i0 + 1) + n := by omega
              rw [this]
              exact gb
      · rw [if_neg hv] at h
        by_cases hv0 : v = 0
        · rw [if_pos hv0] at h
          rcases hrec : resolveCols rows cs (i0 + 1) with e' | ⟨ws', fs'⟩
          · rw [hrec] at h; simp at h
          · rw [hrec] at h
            simp only [Except.ok.injEq, Prod.mk.injEq] at h
            obtain ⟨hcw, hfs⟩ := h
            subst hcw hfs
            obtain ⟨ih1, ih2, ih3⟩ := ih (i0 + 1) ws' fs' hrec
            subst hv0
            refine ⟨by simp [ih1], ?_, ?_⟩
            · intro p hp
              obtain ⟨hge, cc, hcc, hflex⟩ := ih2 p hp
              refine ⟨by omega, cc, ?_, hflex⟩
              have : p.1 - i0 = (p.1 - (i0 + 1)) + 1 := by omega
              rw [this]
              simpa using hcc
            · intro j cc hj
              cases j with
              | zero =>
                simp at hj
                subst hj
                refine ⟨?_, ?_, ?_⟩
                · intro v' hv' hvpos
                  rw [hsz] at hv'
                  injection hv' with hvv
                  omega
                · intro _
                  simp
                · intro w hw
                  rw [hsz] at hw
                  exact SizeSpec.noConfusion hw
              | succ n =>
                simp only [List.getElem?_cons_succ] at hj
                obtain ⟨g1, g2, g3⟩ := ih3 n cc hj
                refine ⟨fun v' hv' hvpos => by simpa using g1 v' hv' hvpos,
                  fun h0 => by
                  rw [List.getElem?_cons_succ, show i0 + (n + 1) = i0 + 1 + n by omega]
                  exact g2 h0,
                  fun w hw => ?_⟩
                obtain ⟨ga, gb⟩ := g3 w hw
                refine ⟨by simpa using ga, ?_⟩
                have : i0 + (n + 1) = (i0 + 1) + n := by omega
                rw [this]
                exact gb
        · rw [if_neg hv0] at h
          simp at h
    · rw [hsz] at h
      dsimp only at h
      rcases hrec : resolveCols rows cs (i0 + 1) with e' | ⟨ws', fs'⟩
      · rw [hrec] at h; simp at h
      · rw [hrec] at h
        simp only [Except.ok.injEq, Prod.mk.injEq] at h
        obtain ⟨hcw, hfs⟩ := h
        subst hcw hfs
        obtain ⟨ih1, ih2, ih3⟩ := ih (i0 + 1) ws' fs' hrec
        refine ⟨by simp [ih1], ?_, ?_⟩
        · intro p hp
          rcases List.mem_cons.mp hp with hp0 | hp'
          · subst hp0
            refine ⟨le_refl _, c, ?_, hsz⟩
            simp
          · obtain ⟨hge, cc, hcc, hflex⟩ := ih2 p hp'
            refine ⟨by omega, cc, ?_, hflex⟩
            have : p.1 - i0 = (p.1 - (i0 + 1)) + 1 := by omega
            rw [this]
            simpa using hcc
        · intro j cc hj
          cases j with
          | zero =>
            simp at hj
            subst hj
            refine ⟨?_, ?_, ?_⟩
            · intro v' hv' _
              rw [hsz] at hv'
              exact SizeSpec.noConfusion hv'
            · intro h0
              rw [hsz] at h0
              exact SizeSpec.noConfusion h0
            · intro w' hw'
              rw [hsz] at hw'
              injection hw' with hww
              subst hww
              exact ⟨by simp, by simp⟩
          | succ n =>
            simp only [List.getElem?_cons_succ] at hj
            obtain ⟨g1, g2, g3⟩ := ih3 n cc hj
            refine ⟨fun v' hv' hvpos => by simpa using g1 v' hv' hvpos,
              fun h0 => by
                  rw [List.getElem?_cons_succ, show i0 + (n + 1) = i0 + 1 + n by omega]
                  exact g2 h0,
              fun w' hw' => ?_⟩
            obtain ⟨ga, gb⟩ := g3 w' hw'
            refine ⟨by simpa using ga, ?_⟩
            have : i0 + (n + 1) = (i0 + 1) + n := by omega
            rw [this]
            exact List.mem_cons_of_mem _ gb

theorem compute_ok_shape (columns : List Column) (rows : List (List Cell))
    (context_width indent : Int) (ws : List Int)
    (h : compute_column_widths columns rows context_width indent = .ok ws) :
    ∃ cw0 fs cwF, resolveCols rows columns 0 = .ok (cw0, fs) ∧
      ws = cwF.map (fun o => o.getD 0) ∧
      ws.sum + ((columns.length : Int) - 1) ≤
        max (context_width - indent) FLEX_MIN_COLUMN_WIDTH ∧
      ((fs = [] ∧ cwF = cw0) ∨
        (fs ≠ [] ∧ ∃ fws, closest_ratio_distribution (fs.map Prod.snd)
            (max (context_width - indent) FLEX_MIN_COLUMN_WIDTH -
              ((cw0.filterMap id).sum + ((columns.length : Int) - 1))) = .ok fws ∧
          cwF = applyFlexWidths cw0 (fs.map Prod.fst) fws)) := by
  unfold compute_column_widths at h
  rcases hres : resolveCols rows columns 0 with e | ⟨cw0, fs⟩
  · rw [hres] at h; simp at h
  · rw [hres] at h
    rcases hfs : fs with _ | ⟨p, ps⟩
    · subst hfs
      dsimp only at h
      obtain ⟨h1, h2⟩ := finishWidths_ok _ _ _ _ h
      exact ⟨cw0, [], cw0, rfl, h1, h2, Or.inl ⟨rfl, rfl⟩⟩
    · subst hfs
      dsimp only at h
      rcases hdist : closest_ratio_distribution ((p :: ps).map Prod.snd)
          (max (context_width - indent) FLEX_MIN_COLUMN_WIDTH -
            ((cw0.filterMap id).sum + ((columns.length : Int) - 1))) with e | fws
      · rw [hdist] at h; simp at h
      · rw [hdist] at h
        obtain ⟨h1, h2⟩ := finishWidths_ok _ _ _ _ h
        exact ⟨cw0, p :: ps, applyFlexWidths cw0 ((p :: ps).map Prod.fst) fws, rfl, h1, h2,
          Or.inr ⟨by simp, fws, hdist, rfl⟩⟩

theorem compute_error_fit (columns : List Column) (rows : List (List Cell))
    (context_width indent u e : Int)
    (h : compute_column_widths columns rows context_width indent =
      .error (.tableExceedsWidth u e)) :
    e = max (context_width - indent) FLEX_MIN_COLUMN_WIDTH ∧ e < u := by
  unfold compute_column_widths at h
  rcases hres : resolveCols rows columns 0 with e' | ⟨cw0, fs⟩
  · rw [hres] at h
    simp at h
    obtain ⟨s, hs⟩ := resolveCols_error rows columns 0 e' hres
    rw [hs] at h
    exact absurd h (by simp)
  · rw [hres] at h
    rcases hfs : fs with _ | ⟨p, ps⟩
    · subst hfs
      dsimp only at h
      obtain ⟨ha, hb⟩ := finishWidths_error _ _ _ _ _ h
      exact ⟨ha, ha ▸ hb⟩
    · subst hfs
      dsimp only at h
      rcases hdist : closest_ratio_distribution ((p :: ps).map Prod.snd)
          (max (context_width - indent) FLEX_MIN_COLUMN_WIDTH -
            ((cw0.filterMap id).sum + ((columns.length : Int) - 1))) with e' | fws
      · rw [hdist] at h
        simp at h
        have := closest_ratio_distribution_error _ _ _ hdist
        rw [this] at h
        exact absurd h (by simp)
      · rw [hdist] at h
        obtain ⟨ha, hb⟩ := finishWidths_error _ _ _ _ _ h
        exact ⟨ha, ha ▸ hb⟩

theorem compute_ok_entry (columns : List Column) (rows : List (List Cell))
    (context_width indent : Int) (ws : List Int) (j : Nat) (c : Column)
    (h : compute_column_widths columns rows context_width indent = .ok ws)
    (hj : columns[j]? = some c) :
    (∀ v, c.size = .fixed v → 0 < v → ws[j]? = some v) ∧
    (c.size = .fixed 0 → ws[j]? = some (calc_dynamic_width rows j)) ∧
    (∀ w, c.size = .flex w → ∃ x, ws[j]? = some x ∧ FLEX_MIN_COLUMN_WIDTH ≤ x) := by
  obtain ⟨cw0, fs, cwF, hres, hws, hsum, hcase⟩ :=
    compute_ok_shape columns rows context_width indent ws h
  obtain ⟨hlen, hfs, hentry⟩ := resolveCols_ok rows columns 0 cw0 fs hres
  have hjlt : j < columns.length := by
    by_contra hge
    rw [List.getElem?_eq_none (by omega)] at hj
    simp at hj
  obtain ⟨e1, e2, e3⟩ := hentry j c hj
  have hnotflex : (∀ v, c.size = .fixed v → j ∉ fs.map Prod.fst) := by
    intro v hv hmem
    obtain ⟨p, hp, hpj⟩ := List.mem_map.mp hmem
    obtain ⟨_, c', hc', hc'flex⟩ := hfs p hp
    rw [Nat.sub_zero, hpj, hj] at hc'
    simp at hc'
    rw [← hc', hv] at hc'flex
    exact SizeSpec.noConfusion hc'flex
  have hcwF_of_fixed : ∀ v, c.size = .fixed v → cwF[j]? = cw0[j]? := by
    intro v hv
    rcases hcase with ⟨_, hEq⟩ | ⟨_, fws, _, hEq⟩
    · rw [hEq]
    · rw [hEq]
      exact applyFlexWidths_not_mem _ _ _ _ (hnotflex v hv)
  have hwsj : ws[j]? = (cwF[j]?).map (fun o => o.getD 0) := by
    rw [hws]
    exact List.getElem?_map _ _ _
  refine ⟨?_, ?_, ?_⟩
  · intro v hv hvpos
    rw [hwsj, hcwF_of_fixed v hv, e1 v hv hvpos]
    rfl
  · intro h0
    rw [hwsj, hcwF_of_fixed 0 h0, e2 h0]
    simp
  · intro w hw
    obtain ⟨hcw0j, hjmem⟩ := e3 w hw
    rw [Nat.zero_add] at hjmem
    have hfsne : fs ≠ [] := by
      rintro rfl
      simp at hjmem
    rcases hcase with ⟨hnil, _⟩ | ⟨_, fws, hdist, hEq⟩
    · exact absurd hnil hfsne
    · have hjin : j ∈ fs.map Prod.fst := List.mem_map.mpr ⟨(j, w), hjmem, rfl⟩
      have hlens : (fs.map Prod.fst).length ≤ fws.length := by
        rw [closest_ratio_distribution_length _ _ fws hdist]
        simp
      have hjcw : j < cw0.length := by rw [hlen]; exact hjlt
      obtain ⟨f, hf⟩ := applyFlexWidths_mem (fs.map Prod.fst) fws cw0 j hjin hlens hjcw
      refine ⟨max f FLEX_MIN_COLUMN_WIDTH, ?_, le_max_right _ _⟩
      rw [hwsj, hEq, hf]
      rfl

theorem foldl_max_eq (g : List Cell → Int) :
    ∀ (rows : List (List Cell)) (a : Int), 0 ≤ a →
      rows.foldl (fun m r => max m (g r)) a = max a ((rows.map g).foldr max 0) := by
  intro rows
  induction rows with
  | nil => intro a ha; simp; omega
  | cons r rs ih =>
    intro a ha
    simp only [List.foldl_cons, List.map_cons, List.foldr_cons]
    rw [ih (max a (g r)) (le_trans ha (le_max_left _ _)), max_assoc]

theorem calc_dynamic_width_eq (rows : List (List Cell)) (j : Nat) :
    calc_dynamic_width rows j = max FLEX_MIN_COLUMN_WIDTH (specMaxContentLen rows j) := by
  unfold calc_dynamic_width specMaxContentLen
  exact foldl_max_eq _ rows FLEX_MIN_COLUMN_WIDTH (by norm_num [FLEX_MIN_COLUMN_WIDTH])

theorem calc_dynamic_width_proj (rows rows' : List (List Cell)) (j : Nat)
    (h : rows.map (fun r => r.getD j (Cell.text "")) =
      rows'.map (fun r => r.getD j (Cell.text ""))) :
    calc_dynamic_width rows j = calc_dynamic_width rows' j := by
  have hmm : ∀ (rs : List (List Cell)),
      rs.map (fun r => cellContentLen (r.getD j (Cell.text ""))) =
        (rs.map (fun r => r.getD j (Cell.text ""))).map cellContentLen := by
    intro rs
    rw [List.map_map]
    rfl
  rw [calc_dynamic_width_eq, calc_dynamic_width_eq]
  unfold specMaxContentLen
  rw [hmm rows, hmm rows', h]

/-- Right-recursive reference form of the first-match selection loop,
used to reason about `firstMatch`: combine this pattern's search result
with the best of the remaining patterns, preferring this pattern on equal
start offsets. -/
def selectSpec (md : List Char) : List (Marker × String) → Option (RMatch × String)
  | [] => none
  | x :: xs =>
    match searchMarker x.1 md, selectSpec md xs with
    | none, r => r
    | some m, none => some (m, x.2)
    | some m, some (m', st') =>
      if m.start ≤ m'.start then some (m, x.2) else some (m', st')

/-- How an already-accumulated best match combines with the best of the
remaining patterns under the strict-inequality update rule. -/
def combineAcc : Option (RMatch × String) → Option (RMatch × String) → Option (RMatch × String)
  | none, r => r
  | some a, none => some a
  | some a, some (m, st) => if m.start < a.1.start then some (m, st) else some a

theorem foldl_pickLeft_eq (md : List Char) :
    ∀ (l : List (Marker × String)) (acc : Option (RMatch × String)),
      l.foldl (pickLeft md) acc = combineAcc acc (selectSpec md l) := by
  intro l
  induction l with
  | nil =>
    intro acc
    rcases acc with _ | a
    · rfl
    · rfl
  | cons x xs ih =>
    intro acc
    simp only [List.foldl_cons]
    rw [ih (pickLeft md acc x), pickLeft, selectSpec]
    rcases hs : searchMarker x.1 md with _ | m
    · rfl
    · dsimp only
      rcases acc with _ | ⟨ma, sta⟩
      · dsimp only
        rcases hsel : selectSpec md xs with _ | ⟨mq, stq⟩
        · rfl
        · dsimp only [combineAcc]
          by_cases hms : m.start ≤ mq.start
          · rw [if_pos hms, if_neg (by omega)]
          · rw [if_neg hms, if_pos (by omega)]
      · dsimp only
        rcases hsel : selectSpec md xs with _ | ⟨mq, stq⟩
        · dsimp only [combineAcc]
          by_cases hlt : m.start < ma.start
          · rw [if_pos hlt]
          · rw [if_neg hlt]
        · dsimp only
          by_cases hms : m.start ≤ mq.start
          · rw [if_pos hms]
            dsimp only [combineAcc]
            by_cases hlt : m.start < ma.start
            · rw [if_pos hlt]
              dsimp only [combineAcc]
              rw [if_neg (by omega)]
            · rw [if_neg hlt]
              dsimp only [combineAcc]
              rw [if_neg (by omega)]
          · rw [if_neg hms]
            dsimp only [combineAcc]
            by_cases hlt : m.start < ma.start
            · rw [if_pos hlt]
              dsimp only [combineAcc]
              rw [if_pos (by omega), if_pos (by omega)]
            · rw [if_neg hlt]

theorem firstMatch_eq_selectSpec (md : List Char) :
    firstMatch md = selectSpec md PATTERNS := by
  rw [firstMatch, foldl_pickLeft_eq]
  rcases selectSpec md PATTERNS with _ | r <;> rfl

theorem selectSpec_none (md : List Char) :
    ∀ (l : List (Marker × String)), selectSpec md l = none →
      ∀ x ∈ l, searchMarker x.1 md = none := by
  intro l
  induction l with
  | nil => intro _ x hx; simp at hx
  | cons x xs ih =>
    intro h y hy
    rw [selectSpec] at h
    rcases hs : searchMarker x.1 md with _ | m
    · rw [hs] at h
      dsimp only at h
      rcases List.mem_cons.mp hy with rfl | hy'
      · exact hs
      · exact ih h y hy'
    · rw [hs] at h
      rcases hsel : selectSpec md xs with _ | ⟨m', st'⟩ <;> rw [hsel] at h
      · simp at h
      · dsimp only at h
        by_cases hms : m.start ≤ m'.start
        · rw [if_pos hms] at h; simp at h
        · rw [if_neg hms] at h; simp at h

theorem selectSpec_some (md : List Char) :
    ∀ (l : List (Marker × String)) (m : RMatch) (st : String),
      selectSpec md l = some (m, st) →
      (∀ x ∈ l, ∀ m', searchMarker x.1 md = some m' → m.start ≤ m'.start) ∧
      ∃ l₁ x l₂, l = l₁ ++ x :: l₂ ∧ x.2 = st ∧ searchMarker x.1 md = some m ∧
        ∀ y ∈ l₁, ∀ m', searchMarker y.1 md = some m' → m.start < m'.start := by
  intro l
  induction l with
  | nil => intro m st h; simp [selectSpec] at h
  | cons x xs ih =>
    intro m st h
    rw [selectSpec] at h
    rcases hs : searchMarker x.1 md with _ | mx
    · rw [hs] at h
      dsimp only at h
      obtain ⟨hmin, l₁, y, l₂, hdecomp, hy2, hym, hstrict⟩ := ih m st h
      refine ⟨?_, x :: l₁, y, l₂, by rw [hdecomp]; rfl, hy2, hym, ?_⟩
      · intro z hz m' hm'
        rcases List.mem_cons.mp hz with rfl | hz'
        · rw [hs] at hm'; exact absurd hm' (by simp)
        · exact hmin z hz' m' hm'
      · intro z hz m' hm'
        rcases List.mem_cons.mp hz with rfl | hz'
        · rw [hs] at hm'; exact absurd hm' (by simp)
        · exact hstrict z hz' m' hm'
    · rw [hs] at h
      rcases hsel : selectSpec md xs with _ | ⟨m', st'⟩ <;> rw [hsel] at h
      · dsimp only at h
        simp only [Option.some.injEq, Prod.mk.injEq] at h
        obtain ⟨rfl, rfl⟩ := h
        refine ⟨?_, [], x, xs, rfl, rfl, hs, by simp⟩
        intro z hz m' hm'
        rcases List.mem_cons.mp hz with rfl | hz'
        · rw [hs] at hm'
          simp at hm'
          rw [hm']
        · rw [selectSpec_none md xs hsel z hz'] at hm'
          exact absurd hm' (by simp)
      · dsimp only at h
        obtain ⟨hmin', l₁', y', l₂', hdecomp', hy2', hym', hstrict'⟩ := ih m' st' hsel
        by_cases hms : mx.start ≤ m'.start
        · rw [if_pos hms] at h
          simp only [Option.some.injEq, Prod.mk.injEq] at h
          obtain ⟨rfl, rfl⟩ := h
          refine ⟨?_, [], x, xs, rfl, rfl, hs, by simp⟩
          intro z hz mz hmz
          rcases List.mem_cons.mp hz with rfl | hz'
          · rw [hs] at hmz
            simp at hmz
            rw [hmz]
          · exact le_trans hms (hmin' z hz' mz hmz)
        · rw [if_neg hms] at h
          simp only [Option.some.injEq, Prod.mk.injEq] at h
          obtain ⟨rfl, rfl⟩ := h
          refine ⟨?_, x :: l₁', y', l₂', by rw [hdecomp']; rfl, hy2', hym', ?_⟩
          · intro z hz mz hmz
            rcases List.mem_cons.mp hz with rfl | hz'
            · rw [hs] at hmz
              simp at hmz
              subst hmz
              omega
            · exact hmin' z hz' mz hmz
          · intro z hz mz hmz
            rcases List.mem_cons.mp hz with rfl | hz'
            · rw [hs] at hmz
              simp at hmz
              subst hmz
              omega
            · exact hstrict' z hz' mz hmz

theorem flex_min_is_three : FLEX_MIN_COLUMN_WIDTH = 3 := rfl

/-- C1: for every table whose rows match the column arity and every
non-negative indent, whenever `compute_column_widths` returns a width
list, the widths plus the `numColumns - 1` separators fit within
`max(contextWidth - indent, 3)`; and when it instead raises the
table-exceeds-available-width error, the effective width recorded in the
error is that same bound and the summed width strictly exceeds it. -/
theorem compute_column_widths_fits (columns : List Column) (rows : List (List Cell))
    (context_width indent : Int)
    (harity : ∀ r ∈ rows, r.length = columns.length) (hind : 0 ≤ indent) :
    (∀ ws, compute_column_widths columns rows context_width indent = .ok ws →
      ws.sum + ((columns.length : Int) - 1) ≤ max (context_width - indent) 3) ∧
    (∀ u e, compute_column_widths columns rows context_width indent =
        .error (.tableExceedsWidth u e) →
      e = max (context_width - indent) 3 ∧ e < u) := by
  constructor
  · intro ws h
    obtain ⟨_, _, _, _, _, hsum, _⟩ := compute_ok_shape columns rows context_width indent ws h
    rw [flex_min_is_three] at hsum
    exact hsum
  · intro u e h
    have := compute_error_fit columns rows context_width indent u e h
    rw [flex_min_is_three] at this
    exact this

/-- C1 witness: a one-column `Fixed(5)` table at context width 20 and
indent 0 allocates `[5]`, and `5 + 0 ≤ max(20 - 0, 3)`. -/
theorem compute_column_widths_fits_witness :
    ([5] : List Int).sum + (([(⟨SizeSpec.fixed 5⟩ : Column)].length : Int) - 1) ≤
      max ((20 : Int) - 0) 3 :=
  (compute_column_widths_fits [⟨SizeSpec.fixed 5⟩] [[Cell.text "hi"]] 20 0
    (by simp) (by norm_num)).1 [5] (by decide)

/-- C2 counterexample: the frozen claim only requires a positive *total*
weight.  With weights `[-1, -1, 6]` (total weight 4 > 0, non-empty) and
remaining budget 2 ≥ 0, `closest_ratio_distribution` returns `[0, 1, 4]`,
whose sum is 5, not 2: truncation of the negative exact shares makes the
leftover count negative, and the Python negative slice then awards the
wrong number of units. -/
theorem closest_ratio_distribution_negative_weight_drift :
    closest_ratio_distribution [-1, -1, 6] 2 = .ok [0, 1, 4] ∧
    ([(-1 : ℚ), -1, 6] ≠ []) ∧ ((0 : ℚ) < [(-1 : ℚ), -1, 6].sum) ∧ ((0 : Int) ≤ 2) ∧
    ¬(([0, 1, 4] : List Int).sum = 2) := by
  refine ⟨?_, by simp, by norm_num, by norm_num, by decide⟩
  have hc : ⌈(-(1/2) : ℚ)⌉ = 0 := by norm_num
  unfold closest_ratio_distribution sorted_remainders remainders_list exact_values
  norm_num [List.enum, List.enumFrom, ratTrunc, List.insertionSort, List.orderedInsert,
    pyDescPair, pyTakeCount, incAt, hc, List.take, List.foldl, Int.toNat]

/-- C2 (amended): for every non-empty list of non-negative flex weights
with positive total weight and every non-negative remaining budget, the
largest-remainder distribution succeeds and returns one integer per
weight summing exactly to the budget. -/
theorem closest_ratio_distribution_exact_sum (weights : List ℚ) (total : Int)
    (hne : weights ≠ []) (hnn : ∀ w ∈ weights, 0 ≤ w) (hpos : 0 < weights.sum)
    (htot : 0 ≤ total) :
    (closest_ratio_distribution weights total).isOk = true ∧
    ∀ ds, closest_ratio_distribution weights total = .ok ds →
      ds.sum = total ∧ ds.length = weights.length := by
  constructor
  · unfold closest_ratio_distribution
    by_cases h0 : total = 0
    · simp [h0, Except.isOk, Except.toBool]
    · rw [if_neg h0, if_neg (ne_of_gt hpos)]
      simp [Except.isOk, Except.toBool]
  · intro ds h
    exact ⟨closest_ratio_distribution_sum_core weights total hnn hpos htot ds h,
      closest_ratio_distribution_length weights total ds h⟩

/-- C2 witness: weights `[1, 2]` with budget 10 distribute as `[3, 7]`;
the distribution succeeds and `3 + 7 = 10` with one entry per weight. -/
theorem closest_ratio_distribution_exact_sum_witness :
    (closest_ratio_distribution [1, 2] 10).isOk = true ∧
    (([3, 7] : List Int).sum = 10 ∧ ([3, 7] : List Int).length = [(1 : ℚ), 2].length) := by
  have h := closest_ratio_distribution_exact_sum [1, 2] 10 (by simp)
    (by intro w hw; simp at hw; rcases hw with rfl | rfl <;> norm_num)
    (by norm_num) (by norm_num)
  refine ⟨h.1, h.2 [3, 7] ?_⟩
  unfold closest_ratio_distribution sorted_remainders remainders_list exact_values
  norm_num [List.enum, List.enumFrom, ratTrunc, List.insertionSort, List.orderedInsert,
    pyDescPair, pyTakeCount, incAt, List.take, List.foldl, Int.toNat]

/-- C3 counterexample: a `Fixed(0)` column whose longest content is the
one-character string `"a"` resolves to width 3, not to the maximum
measured content length 1 — `calc_dynamic_width` starts its running
maximum at `FLEX_MIN_COLUMN_WIDTH = 3`, so a floor *is* applied. -/
theorem dynamic_width_floor_counterexample :
    compute_column_widths [⟨SizeSpec.fixed 0⟩] [[Cell.text "a"]] 100 0 = .ok [3] ∧
    specMaxContentLen [[Cell.text "a"]] 0 = 1 ∧ ¬((3 : Int) = 1) :=
  ⟨by decide, by decide, by decide⟩

/-- C3 (amended): the resolved width of a `Fixed(0)` column equals
`max(3, maximum measured content length)` over that column's cells, and
it depends only on that column's cells: any row list whose column-`j`
projection agrees gives the same dynamic width. -/
theorem dynamic_width_resolved (columns : List Column) (rows : List (List Cell))
    (context_width indent : Int) (ws : List Int) (j : Nat)
    (hok : compute_column_widths columns rows context_width indent = .ok ws)
    (hj : columns[j]? = some ⟨SizeSpec.fixed 0⟩) :
    ws[j]? = some (max 3 (specMaxContentLen rows j)) ∧
    (∀ rows', rows'.map (fun r => r.getD j (Cell.text "")) =
        rows.map (fun r => r.getD j (Cell.text "")) →
      calc_dynamic_width rows' j = calc_dynamic_width rows j) := by
  obtain ⟨_, e2, _⟩ :=
    compute_ok_entry columns rows context_width indent ws j ⟨SizeSpec.fixed 0⟩ hok hj
  refine ⟨?_, fun rows' hproj => calc_dynamic_width_proj rows' rows j hproj⟩
  rw [e2 rfl, calc_dynamic_width_eq, flex_min_is_three]

/-- C3 witness: a `Fixed(0)` column over the single row `["hello"]`
resolves to `max 3 5 = 5`. -/
theorem dynamic_width_resolved_witness :
    ([5] : List Int)[0]? = some (max 3 (specMaxContentLen [[Cell.text "hello"]] 0)) :=
  (dynamic_width_resolved [⟨SizeSpec.fixed 0⟩] [[Cell.text "hello"]] 100 0 [5] 0
    (by decide) (by decide)).1

/-- C4 counterexample: a scaffold node whose type is none of
`indent`/`table`/`br` renders to `.ok []` — the walker silently produces
no output and no error, instead of failing with an unrecognized-node
error as the claim states. -/
theorem unrecognized_node_counterexample :
    render_scaffold (ScaffoldNode.other "mystery") 0 100 = .ok [] ∧
    (render_scaffold (ScaffoldNode.other "mystery") 0 100).isOk = true :=
  ⟨rfl, rfl⟩

/-- C4 (amended): the `if/elif/elif` chain of `render_scaffold` has no
`else` branch, so a document node of any unrecognized type is silently
ignored: rendering it returns successfully with no output events and no
error for every indent and context width. -/
theorem unrecognized_node_ignored (tag : String) (indent context_width : Int) :
    render_scaffold (.other tag) indent context_width = .ok [] := rfl

/-- C5 counterexample: with weights `[1, 1]` and budget 3 both columns
have fractional remainder 1/2; the single leftover unit goes to column 1
(the *later* column), producing `[1, 2]` — the claim's earlier-column
tie-break would produce `[2, 1]`. -/
theorem award_order_tie_counterexample :
    closest_ratio_distribution [1, 1] 3 = .ok [1, 2] ∧
    remainders_list [1, 1] 3 = [(1/2, 0), (1/2, 1)] ∧
    (Except.ok [1, 2] : Except RenderError (List Int)) ≠ .ok [2, 1] := by
  refine ⟨?_, ?_, by decide⟩
  · unfold closest_ratio_distribution sorted_remainders remainders_list exact_values
    norm_num [List.enum, List.enumFrom, ratTrunc, List.insertionSort, List.orderedInsert,
      pyDescPair, pyTakeCount, incAt, List.take, List.foldl, Int.toNat]
  · unfold remainders_list exact_values
    norm_num [List.enum, List.enumFrom, ratTrunc]

/-- C5 (amended): the awarding order of leftover units — the sorted
remainder list whose prefix receives one extra unit each — is a
permutation of the `(fraction, index)` pairs arranged in descending
order of fractional remainder, with equal fractions ordered by
*descending* original column index: on a tie the later column receives
its extra unit first. -/
theorem award_order_sorted (weights : List ℚ) (total : Int) :
    List.Perm (sorted_remainders weights total) (remainders_list weights total) ∧
    (sorted_remainders weights total).Sorted pyDescPair :=
  ⟨sorted_remainders_perm weights total, List.sorted_insertionSort pyDescPair _⟩

/-- C6 counterexample: the claim says only Flex columns are floored at 3,
but a `Fixed(0)` (dynamic) column with two-character content also
resolves to 3 rather than 2. -/
theorem fixed_zero_floor_counterexample :
    compute_column_widths [⟨SizeSpec.fixed 0⟩] [[Cell.text "xy"]] 50 0 = .ok [3] ∧
    specMaxContentLen [[Cell.text "xy"]] 0 = 2 ∧ ¬((3 : Int) = 2) :=
  ⟨by decide, by decide, by decide⟩

/-- C6 (amended): a `Fixed(v)` column with `v > 0` is allocated exactly
`v`, with no `MIN_WIDTH` floor, even when `v < 3`; the 3-wide floor
applies to Flex columns and also to dynamically sized `Fixed(0)` columns
(via the starting value of the content maximum). -/
theorem fixed_and_flex_floors (columns : List Column) (rows : List (List Cell))
    (context_width indent : Int) (ws : List Int) (j : Nat) (c : Column)
    (hok : compute_column_widths columns rows context_width indent = .ok ws)
    (hj : columns[j]? = some c) :
    (∀ v, c.size = .fixed v → 0 < v → ws[j]? = some v) ∧
    (c.size = .fixed 0 → ∃ x, ws[j]? = some x ∧ 3 ≤ x) ∧
    (∀ w, c.size = .flex w → ∃ x, ws[j]? = some x ∧ 3 ≤ x) := by
  obtain ⟨e1, e2, e3⟩ := compute_ok_entry columns rows context_width indent ws j c hok hj
  refine ⟨e1, ?_, fun w hw => ?_⟩
  · intro h0
    refine ⟨calc_dynamic_width rows j, e2 h0, ?_⟩
    rw [calc_dynamic_width_eq, flex_min_is_three]
    exact le_max_left _ _
  · obtain ⟨x, hx, hx3⟩ := e3 w hw
    exact ⟨x, hx, by rw [flex_min_is_three] at hx3; exact hx3⟩

/-- C6 witness: columns `[Fixed(1), Flex(1)]` at context width 10
allocate `[1, 8]`: the fixed column keeps width 1 < 3 (no floor) and the
flex column gets 8 ≥ 3. -/
theorem fixed_and_flex_floors_witness :
    ([1, 8] : List Int)[0]? = some (1 : Int) ∧ ((0 : Int) < 1) := by
  have heval : compute_column_widths [⟨SizeSpec.fixed 1⟩, ⟨SizeSpec.flex 1⟩] [] 10 0 =
      .ok [1, 8] := by
    norm_num [compute_column_widths, resolveCols, closest_ratio_distribution, sorted_remainders,
      remainders_list, exact_values, List.enum, List.enumFrom, ratTrunc, List.insertionSort,
      List.orderedInsert, pyDescPair, pyTakeCount, incAt, List.take, List.foldl, Int.toNat,
      applyFlexWidths, finishWidths, List.filterMap, List.set, FLEX_MIN_COLUMN_WIDTH]
  exact ⟨(fixed_and_flex_floors [⟨SizeSpec.fixed 1⟩, ⟨SizeSpec.flex 1⟩] [] 10 0 [1, 8] 0
    ⟨SizeSpec.fixed 1⟩ heval (by decide)).1 1 rfl (by norm_num), by norm_num⟩

/-- C7: when at least one marker pattern matches, the selection loop
returns a match; every returned match starts no later than any pattern's
match (earliest offset wins), and the winning pattern is the first one in
`PATTERNS` precedence order whose match attains that offset — every
pattern strictly earlier in precedence either fails or matches strictly
later. -/
theorem firstMatch_leftmost (md : List Char) (x0 : Marker × String) (m0 : RMatch)
    (hx : x0 ∈ PATTERNS) (hm : searchMarker x0.1 md = some m0) :
    firstMatch md ≠ none ∧
    ∀ m st, firstMatch md = some (m, st) →
      (∀ x ∈ PATTERNS, ∀ m', searchMarker x.1 md = some m' → m.start ≤ m'.start) ∧
      ∃ l₁ x l₂, PATTERNS = l₁ ++ x :: l₂ ∧ x.2 = st ∧ searchMarker x.1 md = some m ∧
        ∀ y ∈ l₁, ∀ m', searchMarker y.1 md = some m' → m.start < m'.start := by
  constructor
  · intro hnone
    rw [firstMatch_eq_selectSpec] at hnone
    have := selectSpec_none md PATTERNS hnone x0 hx
    rw [this] at hm
    exact absurd hm (by simp)
  · intro m st h
    rw [firstMatch_eq_selectSpec] at h
    exact selectSpec_some md PATTERNS m st h

/-- C7 witness: in `"xx**b** *i*x"` both the bold and the italic patterns
match starting at offset 2; the loop returns the bold match (precedence
tie-break), and its start is no later than the italic match's start. -/
theorem firstMatch_leftmost_witness :
    (⟨2, 7, ['b'], []⟩ : RMatch).start ≤ (⟨2, 6, ['*', 'b'], []⟩ : RMatch).start ∧
    firstMatch "xx**b** *i*x".data ≠ none := by
  have h := firstMatch_leftmost "xx**b** *i*x".data (Marker.bold, "bold") ⟨2, 7, ['b'], []⟩
    (by decide) (by decide)
  exact ⟨(h.2 ⟨2, 7, ['b'], []⟩ "bold" (by decide)).1 (Marker.italic, "italic")
    (by decide) ⟨2, 6, ['*', 'b'], []⟩ (by decide), h.1⟩

/-- C8 counterexample: a table with flex weights `[2, -1]` (a negative,
hence non-positive, flex weight) at context width 100 does fail — but
with the table-exceeds-available-width error, not with the
invalid-size-spec error the claim names; the two error values are
distinct. -/
theorem invalid_flex_weight_counterexample :
    compute_column_widths [⟨SizeSpec.flex 2⟩, ⟨SizeSpec.flex (-1)⟩] [] 100 0 =
      .error (.tableExceedsWidth 202 100) ∧
    (Except.error (RenderError.tableExceedsWidth 202 100) : Except RenderError (List Int)) ≠
      .error (.unknownSizeSpec (.flex (-1))) ∧
    (Except.error (RenderError.tableExceedsWidth 202 100) : Except RenderError (List Int)) ≠
      .error .allWeightsZero := by
  refine ⟨?_, by decide, by decide⟩
  have hc : ⌈(-99 : ℚ)⌉ = -99 := by
    rw [Int.ceil_eq_iff] <;> norm_num
  norm_num [compute_column_widths, resolveCols, closest_ratio_distribution, sorted_remainders,
    remainders_list, exact_values, List.enum, List.enumFrom, ratTrunc, List.insertionSort,
    List.orderedInsert, pyDescPair, pyTakeCount, incAt, List.take, List.foldl, Int.toNat,
    applyFlexWidths, finishWidths, List.filterMap, List.set, FLEX_MIN_COLUMN_WIDTH, hc]

/-- C8 (amended): a negative fixed width is rejected eagerly with the
unknown/invalid-size-spec error; all-zero flex weights fail with the
all-weights-zero error; but a non-positive flex weight among positive
total weights is accepted by the size-spec match and the failure instead
surfaces later as the width fit-check error. -/
theorem size_spec_errors (v : Int) (rest : List Column) (rows : List (List Cell))
    (context_width indent : Int) (hv : v < 0) :
    compute_column_widths (⟨SizeSpec.fixed v⟩ :: rest) rows context_width indent =
      .error (.unknownSizeSpec (.fixed v)) ∧
    compute_column_widths [⟨SizeSpec.flex 0⟩] [] 100 0 = .error .allWeightsZero ∧
    compute_column_widths [⟨SizeSpec.flex 2⟩, ⟨SizeSpec.flex (-1)⟩] [] 100 0 =
      .error (.tableExceedsWidth 202 100) := by
  refine ⟨?_, ?_, ?_⟩
  · unfold compute_column_widths
    rw [resolveCols]
    dsimp only
    rw [if_neg (by omega), if_neg (by omega)]
  · norm_num [compute_column_widths, resolveCols, closest_ratio_distribution, sorted_remainders,
      remainders_list, exact_values, List.enum, List.enumFrom, ratTrunc, List.insertionSort,
      List.orderedInsert, pyDescPair, pyTakeCount, incAt, List.take, List.foldl, Int.toNat,
      applyFlexWidths, finishWidths, List.filterMap, List.set, FLEX_MIN_COLUMN_WIDTH]
  · have hc : ⌈(-99 : ℚ)⌉ = -99 := by
      rw [Int.ceil_eq_iff] <;> norm_num
    norm_num [compute_column_widths, resolveCols, closest_ratio_distribution, sorted_remainders,
      remainders_list, exact_values, List.enum, List.enumFrom, ratTrunc, List.insertionSort,
      List.orderedInsert, pyDescPair, pyTakeCount, incAt, List.take, List.foldl, Int.toNat,
      applyFlexWidths, finishWidths, List.filterMap, List.set, FLEX_MIN_COLUMN_WIDTH, hc]

/-- C8 witness: a single column declared `Fixed(-1)` fails allocation
with the invalid-size-spec error. -/
theorem size_spec_errors_witness :
    compute_column_widths [⟨SizeSpec.fixed (-1)⟩] [] 80 0 =
      .error (.unknownSizeSpec (.fixed (-1))) :=
  (size_spec_errors (-1) [] [] 80 0 (by norm_num)).1

/-- C9 counterexample: the empty string has no markup match, yet
`parse_inline` returns zero fragments (`if not md: return []`), not the
single empty unstyled fragment the claim requires. -/
theorem parse_inline_empty_counterexample :
    parse_inline [] = [] ∧ firstMatch [] = none ∧
    ([] : List Token) ≠ [⟨[], none⟩] := by
  refine ⟨?_, by decide, by simp⟩
  rw [parse_inline]
  simp

/-- C9 (amended): for every *non-empty* string in which no pattern
matches, `parse_inline` returns exactly one fragment whose text is the
input unmodified and whose style is absent; the empty string instead
yields no fragments. -/
theorem parse_inline_literal (md : List Char) (hne : md ≠ [])
    (hnm : firstMatch md = none) : parse_inline md = [⟨md, none⟩] := by
  rw [parse_inline, if_neg hne]
  split
  · rfl
  · rename_i m style hm
    rw [hnm] at hm
    exact absurd hm (by simp)

/-- C9 witness: `"ab"` contains no markup and parses to the single
unstyled fragment `"ab"`. -/
theorem parse_inline_literal_witness :
    parse_inline ['a', 'b'] = [⟨['a', 'b'], none⟩] :=
  parse_inline_literal ['a', 'b'] (by simp) (by decide)

/-- C10: every recursive call of `parse_inline` operates on a strictly
shorter substring: whenever the first-match loop returns a match, the
literal prefix before it, its captured body (which is also the display
text handed to `handle_link`), and the suffix after it are all strictly
shorter than the input. -/
theorem parse_inline_decreasing (md : List Char) (m : RMatch) (st : String)
    (h : firstMatch md = some (m, st)) :
    (md.take m.start).length < md.length ∧
    m.g1.length < md.length ∧
    (md.drop m.stop).length < md.length := by
  obtain ⟨h1, h2, h3, h4⟩ := firstMatch_span md m st h
  refine ⟨?_, by omega, ?_⟩
  · simp only [List.length_take]
    omega
  · simp only [List.length_drop]
    omega

/-- C10 witness: on `"*a*"` the italic match spans the whole input; the
prefix, captured body `"a"`, and suffix are all shorter than 3. -/
theorem parse_inline_decreasing_witness :
    ((['*', 'a', '*'] : List Char).take 0).length < (['*', 'a', '*'] : List Char).length ∧
    (['a'] : List Char).length < (['*', 'a', '*'] : List Char).length ∧
    ((['*', 'a', '*'] : List Char).drop 3).length < (['*', 'a', '*'] : List Char).length := by
  have h := parse_inline_decreasing ['*', 'a', '*'] ⟨0, 3, ['a'], []⟩ "italic" (by decide)
  simpa using h
